import Mathlib

/-!
Verification development for the `giddy` sequence-distance engine
(alignment-based Optimal Matching distances between discrete-state
trajectories).  The engine itself (`giddy/sequence.py`) is not present in
the available sources, so every definition below is modelled from the
specification document: the weighted edit-distance dynamic program, the
substitution/indel cost regimes (hamming, interval, arbitrary, markov,
tran), the Markov transition estimation and chain classification, the
distance-matrix builder and the validating facade.
-/

namespace GiddySeq

/-- A state sequence: an ordered list of integer labels. -/
abbrev StateSeq := List ℕ

section Engine

variable {α : Type} {γ : Type} [Inhabited α] [LinearOrderedAddCommMonoid γ]

/-- Modelled from the spec (§4.3 AlignmentEngine, code absent from src):
row 0 of the edit-distance table, `D[0][0] = 0`,
`D[0][j] = D[0][j-1] + indel_cost(B[j])`. -/
def specRow0 (ind : α → γ) (B : List α) : ℕ → γ
  | 0 => 0
  | j + 1 => specRow0 ind B j + ind (B.getD j default)

/-- Modelled from the spec (§4.3 AlignmentEngine, code absent from src):
given row `i-1` of the table (`prev`) and the element `a = A[i]`, the
row `i`:  `D[i][0] = D[i-1][0] + indel_cost(A[i])` and
`D[i][j] = min(D[i-1][j-1] + substitution_cost(A[i],B[j]),
D[i-1][j] + indel_cost(A[i]), D[i][j-1] + indel_cost(B[j]))`. -/
def specRowStep (sub : α → α → γ) (ind : α → γ) (B : List α) (a : α)
    (prev : ℕ → γ) : ℕ → γ
  | 0 => prev 0 + ind a
  | j + 1 =>
    min (min (prev j + sub a (B.getD j default)) (prev (j + 1) + ind a))
      (specRowStep sub ind B a prev j + ind (B.getD j default))

/-- Modelled from the spec (§4.3 AlignmentEngine, code absent from src):
the full dynamic-programming table `D[i][j]` of the weighted
edit-distance recurrence between sequences `A` and `B`. -/
def specD (sub : α → α → γ) (ind : α → γ) (A B : List α) : ℕ → ℕ → γ
  | 0 => specRow0 ind B
  | i + 1 => specRowStep sub ind B (A.getD i default) (specD sub ind A B i)

/-- Modelled from the spec (§4.3): the OM distance between `A` and `B` is
the table corner `D[m][n]`. -/
def omDist (sub : α → α → γ) (ind : α → γ) (A B : List α) : γ :=
  specD sub ind A B A.length B.length

theorem specD_zero_zero (sub : α → α → γ) (ind : α → γ) (A B : List α) :
    specD sub ind A B 0 0 = 0 := rfl

theorem specD_succ_zero (sub : α → α → γ) (ind : α → γ) (A B : List α) (i : ℕ) :
    specD sub ind A B (i + 1) 0 = specD sub ind A B i 0 + ind (A.getD i default) := rfl

theorem specD_zero_succ (sub : α → α → γ) (ind : α → γ) (A B : List α) (j : ℕ) :
    specD sub ind A B 0 (j + 1) = specD sub ind A B 0 j + ind (B.getD j default) := rfl

theorem specD_succ_succ (sub : α → α → γ) (ind : α → γ) (A B : List α) (i j : ℕ) :
    specD sub ind A B (i + 1) (j + 1) =
      min (min (specD sub ind A B i j + sub (A.getD i default) (B.getD j default))
            (specD sub ind A B i (j + 1) + ind (A.getD i default)))
        (specD sub ind A B (i + 1) j + ind (B.getD j default)) := rfl

/-- The first row sums the indel costs of the prefix of `B`. -/
theorem specRow0_eq_sum (ind : α → γ) (B : List α) :
    ∀ n, n ≤ B.length → specRow0 ind B n = ((B.take n).map ind).sum := by
  intro n
  induction n with
  | zero => intro _; simp [specRow0]
  | succ n ih =>
    intro hn
    have hn' : n < B.length := Nat.lt_of_succ_le hn
    rw [specRow0, ih (Nat.le_of_lt hn'), List.take_succ]
    simp [List.getD, List.getElem?_eq_getElem hn',
      List.sum_take_succ (List.map ind B) n (by simpa using hn')]

/-- The first column sums the indel costs of the prefix of `A`. -/
theorem specD_col0_eq_sum (sub : α → α → γ) (ind : α → γ) (A B : List α) :
    ∀ i, i ≤ A.length → specD sub ind A B i 0 = ((A.take i).map ind).sum := by
  intro i
  induction i with
  | zero => intro _; simp [specD, specRow0]
  | succ i ih =>
    intro hi
    have hi' : i < A.length := Nat.lt_of_succ_le hi
    rw [specD_succ_zero, ih (Nat.le_of_lt hi'), List.take_succ]
    simp [List.getD, List.getElem?_eq_getElem hi',
      List.sum_take_succ (List.map ind A) i (by simpa using hi')]

theorem getD_mem_of_lt {β : Type} [Inhabited β] (l : List β) {t : ℕ}
    (h : t < l.length) : l.getD t default ∈ l := by
  rw [List.getD_eq_getElem l default h]
  exact List.getElem_mem h

theorem add_pos_nonneg_pos {d x : γ} (hd : 0 ≤ d) (hx : 0 < x) : 0 < d + x :=
  lt_of_lt_of_le hx (le_add_of_nonneg_left hd)

/-- All table entries are non-negative when all costs touched by the two
sequences are non-negative. -/
theorem specD_nonneg (sub : α → α → γ) (ind : α → γ) (A B : List α)
    (hs : ∀ a ∈ A, ∀ b ∈ B, 0 ≤ sub a b)
    (hiA : ∀ a ∈ A, 0 ≤ ind a) (hiB : ∀ b ∈ B, 0 ≤ ind b) :
    ∀ i, i ≤ A.length → ∀ j, j ≤ B.length → 0 ≤ specD sub ind A B i j := by
  intro i
  induction i with
  | zero =>
    intro _ j
    induction j with
    | zero => intro _; simp [specD, specRow0]
    | succ j ihj =>
      intro hj
      rw [specD_zero_succ]
      exact add_nonneg (ihj (Nat.le_of_succ_le hj))
        (hiB _ (getD_mem_of_lt B (Nat.lt_of_succ_le hj)))
  | succ i ihi =>
    intro hi j
    have ihi' := ihi (Nat.le_of_succ_le hi)
    have hAi : A.getD i default ∈ A := getD_mem_of_lt A (Nat.lt_of_succ_le hi)
    induction j with
    | zero =>
      intro _
      rw [specD_succ_zero]
      exact add_nonneg (ihi' 0 (Nat.zero_le _)) (hiA _ hAi)
    | succ j ihj =>
      intro hj
      have hBj : B.getD j default ∈ B := getD_mem_of_lt B (Nat.lt_of_succ_le hj)
      rw [specD_succ_succ]
      refine le_min (le_min ?_ ?_) ?_
      · exact add_nonneg (ihi' j (Nat.le_of_succ_le hj)) (hs _ hAi _ hBj)
      · exact add_nonneg (ihi' (j + 1) hj) (hiA _ hAi)
      · exact add_nonneg (ihj (Nat.le_of_succ_le hj)) (hiB _ hBj)

/-- Diagonal upper bound: substituting position by position, `D[i][i]`
costs at most `i` times a bound on the substitution costs. -/
theorem specD_diag_le (sub : α → α → γ) (ind : α → γ) (A B : List α) (c : γ) :
    ∀ i, (∀ t, t < i → sub (A.getD t default) (B.getD t default) ≤ c) →
      specD sub ind A B i i ≤ i • c := by
  intro i
  induction i with
  | zero => intro _; simp [specD, specRow0]
  | succ i ih =>
    intro hc
    have h1 : specD sub ind A B (i + 1) (i + 1) ≤
        specD sub ind A B i i + sub (A.getD i default) (B.getD i default) := by
      rw [specD_succ_succ]
      exact le_trans (min_le_left _ _) (min_le_left _ _)
    refine le_trans h1 ?_
    rw [succ_nsmul]
    exact add_le_add (ih fun t ht => hc t (Nat.lt_succ_of_lt ht))
      (hc i (Nat.lt_succ_self i))

/-- If the substitution cost vanishes on equal states, aligning a sequence
with itself costs `0` along the diagonal. -/
theorem specD_diag_self (sub : α → α → γ) (ind : α → γ) (A : List α)
    (h0 : ∀ a ∈ A, sub a a = 0)
    (hs : ∀ a ∈ A, ∀ b ∈ A, 0 ≤ sub a b) (hi : ∀ a ∈ A, 0 ≤ ind a) :
    ∀ i, i ≤ A.length → specD sub ind A A i i = 0 := by
  intro i hi'
  refine le_antisymm ?_ (specD_nonneg sub ind A A hs hi hi i hi' i hi')
  have := specD_diag_le sub ind A A 0 i (fun t ht =>
    le_of_eq (h0 _ (getD_mem_of_lt A (Nat.lt_of_lt_of_le ht hi'))))
  simpa using this

/-- Zero distance forces prefix lengths and prefix contents to agree when
substitution is positive on distinct states and indels are positive. -/
theorem specD_eq_zero_imp (sub : α → α → γ) (ind : α → γ) (A B : List α)
    (hspos : ∀ a ∈ A, ∀ b ∈ B, a ≠ b → 0 < sub a b)
    (hs0 : ∀ a ∈ A, ∀ b ∈ B, 0 ≤ sub a b)
    (hiA : ∀ a ∈ A, 0 < ind a) (hiB : ∀ b ∈ B, 0 < ind b) :
    ∀ i, i ≤ A.length → ∀ j, j ≤ B.length → specD sub ind A B i j = 0 →
      i = j ∧ ∀ t, t < i → A.getD t default = B.getD t default := by
  have hnn := specD_nonneg sub ind A B hs0 (fun a ha => (hiA a ha).le)
    (fun b hb => (hiB b hb).le)
  intro i
  induction i with
  | zero =>
    intro _ j
    cases j with
    | zero => intro _ _; exact ⟨rfl, fun t ht => absurd ht (Nat.not_lt_zero t)⟩
    | succ j =>
      intro hj h0
      exfalso
      rw [specD_zero_succ] at h0
      have hpos : 0 < specD sub ind A B 0 j + ind (B.getD j default) :=
        add_pos_nonneg_pos (hnn 0 (Nat.zero_le _) j (Nat.le_of_succ_le hj))
          (hiB _ (getD_mem_of_lt B (Nat.lt_of_succ_le hj)))
      exact absurd h0 hpos.ne'
  | succ i ih =>
    intro hi j
    have hAi : A.getD i default ∈ A := getD_mem_of_lt A (Nat.lt_of_succ_le hi)
    cases j with
    | zero =>
      intro _ h0
      exfalso
      rw [specD_succ_zero] at h0
      have hpos : 0 < specD sub ind A B i 0 + ind (A.getD i default) :=
        add_pos_nonneg_pos (hnn i (Nat.le_of_succ_le hi) 0 (Nat.zero_le _))
          (hiA _ hAi)
      exact absurd h0 hpos.ne'
    | succ j =>
      intro hj h0
      have hBj : B.getD j default ∈ B := getD_mem_of_lt B (Nat.lt_of_succ_le hj)
      rw [specD_succ_succ] at h0
      set o1 := specD sub ind A B i j + sub (A.getD i default) (B.getD j default) with ho1
      have h2pos : 0 < specD sub ind A B i (j + 1) + ind (A.getD i default) :=
        add_pos_nonneg_pos (hnn i (Nat.le_of_succ_le hi) (j + 1) hj) (hiA _ hAi)
      have h3pos : 0 < specD sub ind A B (i + 1) j + ind (B.getD j default) :=
        add_pos_nonneg_pos (hnn (i + 1) hi j (Nat.le_of_succ_le hj)) (hiB _ hBj)
      have ho : o1 = 0 := by
        rcases min_choice (min o1 (specD sub ind A B i (j + 1) + ind (A.getD i default)))
          (specD sub ind A B (i + 1) j + ind (B.getD j default)) with hmin | hmin
        · rw [hmin] at h0
          rcases min_choice o1 (specD sub ind A B i (j + 1) + ind (A.getD i default)) with
            hmin2 | hmin2
          · rwa [hmin2] at h0
          · rw [hmin2] at h0; exact absurd h0 h2pos.ne'
        · rw [hmin] at h0; exact absurd h0 h3pos.ne'
      have hboth := (add_eq_zero_iff_of_nonneg
        (hnn i (Nat.le_of_succ_le hi) j (Nat.le_of_succ_le hj))
        (hs0 _ hAi _ hBj)).mp ho
      obtain ⟨hd, hsub⟩ := hboth
      have hab : A.getD i default = B.getD j default := by
        by_contra hne
        exact absurd hsub (hspos _ hAi _ hBj hne).ne'
      obtain ⟨hij, hpre⟩ := ih (Nat.le_of_succ_le hi) j (Nat.le_of_succ_le hj) hd
      subst hij
      refine ⟨rfl, fun t ht => ?_⟩
      rcases Nat.lt_succ_iff_lt_or_eq.mp ht with ht' | ht'
      · exact hpre t ht'
      · subst ht'; exact hab

/-- Diagonal lower bound: every edit path over prefixes of lengths `i`,`j`
uses at least `max i j` operations, each of cost at least `c`. -/
theorem specD_lower (sub : α → α → γ) (ind : α → γ) (A B : List α) (c : γ)
    (hc0 : 0 ≤ c)
    (hs : ∀ a ∈ A, ∀ b ∈ B, c ≤ sub a b)
    (hiA : ∀ a ∈ A, c ≤ ind a) (hiB : ∀ b ∈ B, c ≤ ind b) :
    ∀ i, i ≤ A.length → ∀ j, j ≤ B.length →
      (max i j) • c ≤ specD sub ind A B i j := by
  intro i
  induction i with
  | zero =>
    intro _ j
    induction j with
    | zero => intro _; simp [specD, specRow0]
    | succ j ihj =>
      intro hj
      rw [specD_zero_succ]
      have : (max 0 (j + 1)) • c = (max 0 j) • c + c := by
        simp [succ_nsmul]
      rw [this]
      exact add_le_add (ihj (Nat.le_of_succ_le hj))
        (hiB _ (getD_mem_of_lt B (Nat.lt_of_succ_le hj)))
  | succ i ihi =>
    intro hi j
    have ihi' := ihi (Nat.le_of_succ_le hi)
    have hAi : A.getD i default ∈ A := getD_mem_of_lt A (Nat.lt_of_succ_le hi)
    induction j with
    | zero =>
      intro _
      rw [specD_succ_zero]
      have : (max (i + 1) 0) • c = (max i 0) • c + c := by
        simp [succ_nsmul]
      rw [this]
      exact add_le_add (ihi' 0 (Nat.zero_le _)) (hiA _ hAi)
    | succ j ihj =>
      intro hj
      have hBj : B.getD j default ∈ B := getD_mem_of_lt B (Nat.lt_of_succ_le hj)
      rw [specD_succ_succ]
      refine le_min (le_min ?_ ?_) ?_
      · have harith : max (i + 1) (j + 1) • c ≤ (max i j) • c + c := by
          rw [← succ_nsmul]
          exact nsmul_le_nsmul_left hc0 (by omega)
        exact le_trans harith
          (add_le_add (ihi' j (Nat.le_of_succ_le hj)) (hs _ hAi _ hBj))
      · have harith : max (i + 1) (j + 1) • c ≤ (max i (j + 1)) • c + c := by
          rw [← succ_nsmul]
          exact nsmul_le_nsmul_left hc0 (by omega)
        exact le_trans harith (add_le_add (ihi' (j + 1) hj) (hiA _ hAi))
      · have harith : max (i + 1) (j + 1) • c ≤ (max (i + 1) j) • c + c := by
          rw [← succ_nsmul]
          exact nsmul_le_nsmul_left hc0 (by omega)
        exact le_trans harith
          (add_le_add (ihj (Nat.le_of_succ_le hj)) (hiB _ hBj))

end Engine

section Integrality

variable {α : Type} [Inhabited α]

/-- When every cost is a natural number, every table entry is one. -/
theorem specD_natCast (sub : α → α → ℚ) (ind : α → ℚ) (A B : List α)
    (hs : ∀ a b, ∃ n : ℕ, sub a b = n) (hi : ∀ a, ∃ n : ℕ, ind a = n) :
    ∀ i j, ∃ d : ℕ, specD sub ind A B i j = d := by
  intro i
  induction i with
  | zero =>
    intro j
    induction j with
    | zero => exact ⟨0, by simp [specD, specRow0]⟩
    | succ j ihj =>
      obtain ⟨d, hd⟩ := ihj
      obtain ⟨n, hn⟩ := hi (B.getD j default)
      exact ⟨d + n, by rw [specD_zero_succ, hd, hn]; push_cast; ring⟩
  | succ i ihi =>
    intro j
    induction j with
    | zero =>
      obtain ⟨d, hd⟩ := ihi 0
      obtain ⟨n, hn⟩ := hi (A.getD i default)
      exact ⟨d + n, by rw [specD_succ_zero, hd, hn]; push_cast; ring⟩
    | succ j ihj =>
      obtain ⟨d1, hd1⟩ := ihi j
      obtain ⟨d2, hd2⟩ := ihi (j + 1)
      obtain ⟨d3, hd3⟩ := ihj
      obtain ⟨s, hsub⟩ := hs (A.getD i default) (B.getD j default)
      obtain ⟨n, hn⟩ := hi (A.getD i default)
      obtain ⟨n', hn'⟩ := hi (B.getD j default)
      refine ⟨min (min (d1 + s) (d2 + n)) (d3 + n'), ?_⟩
      rw [specD_succ_succ, hd1, hd2, hd3, hsub, hn, hn']
      push_cast [Nat.cast_min]
      ring_nf

end Integrality

section AltOrder

variable {α : Type} {γ : Type} [Inhabited α] [LinearOrderedAddCommMonoid γ]

/-- The three options of the recurrence minimized in the opposite order:
used to show that the order in which ties are examined cannot affect the
numeric result. -/
def specRowStepAlt (sub : α → α → γ) (ind : α → γ) (B : List α) (a : α)
    (prev : ℕ → γ) : ℕ → γ
  | 0 => prev 0 + ind a
  | j + 1 =>
    min (min (specRowStepAlt sub ind B a prev j + ind (B.getD j default))
          (prev (j + 1) + ind a))
      (prev j + sub a (B.getD j default))

/-- The edit-distance table computed with the options reordered. -/
def specDAlt (sub : α → α → γ) (ind : α → γ) (A B : List α) : ℕ → ℕ → γ
  | 0 => specRow0 ind B
  | i + 1 => specRowStepAlt sub ind B (A.getD i default) (specDAlt sub ind A B i)

theorem specDAlt_eq (sub : α → α → γ) (ind : α → γ) (A B : List α) :
    ∀ i j, specDAlt sub ind A B i j = specD sub ind A B i j := by
  intro i
  induction i with
  | zero => intro j; rfl
  | succ i ihi =>
    intro j
    induction j with
    | zero =>
      show specDAlt sub ind A B i 0 + _ = _
      rw [ihi 0]; rfl
    | succ j ihj =>
      show min (min (specDAlt sub ind A B (i + 1) j + _) (specDAlt sub ind A B i (j + 1) + _))
          (specDAlt sub ind A B i j + _) = _
      rw [ihi (j + 1), ihi j, ihj, specD_succ_succ]
      simp [min_comm, min_assoc, min_left_comm]

end AltOrder

/-! ### Cost regimes, Markov estimation, matrix builder and facade -/

/-- Modelled from the spec (§4.5 facade, code absent from src): the alphabet
size `k` is inferred as `max(label) + 1` across the whole batch. -/
def inferK (seqs : List StateSeq) : ℕ :=
  (seqs.map (fun s => s.foldr max 0)).foldr max 0 + 1

theorem le_foldr_max (l : List ℕ) : ∀ x ∈ l, x ≤ l.foldr max 0 := by
  induction l with
  | nil => intro x hx; cases hx
  | cons a l ih =>
    intro x hx
    rcases List.mem_cons.mp hx with h | h
    · subst h; exact le_max_left _ _
    · exact le_trans (ih x h) (le_max_right _ _)

theorem label_lt_inferK {seqs : List StateSeq} {s : StateSeq} {x : ℕ}
    (hs : s ∈ seqs) (hx : x ∈ s) : x < inferK seqs := by
  have h1 : x ≤ s.foldr max 0 := le_foldr_max s x hx
  have h2 : s.foldr max 0 ≤ (seqs.map (fun u => u.foldr max 0)).foldr max 0 :=
    le_foldr_max _ _ (List.mem_map_of_mem _ hs)
  exact Nat.lt_succ_of_le (le_trans h1 h2)

/-- Modelled from the spec (§4.1 CostModel, "hamming"): substitution cost 1
on distinct states, 0 on equal states, valued in `ℚ ∪ {+∞}`. -/
def hamSub (i j : ℕ) : WithTop ℚ := if i = j then 0 else 1

/-- Modelled from the spec (§4.1, "hamming"): insertion/deletion cost +∞
(indels disallowed). -/
def hamInd (_ : ℕ) : WithTop ℚ := ⊤

/-- Modelled from the spec: the hamming OM distance as the edit-distance DP
with infinite indel cost. -/
def hamDP (A B : StateSeq) : WithTop ℚ := omDist hamSub hamInd A B

/-- Number of mismatching positions `t < i` between two sequences. -/
def mismRec (A B : StateSeq) : ℕ → ℕ
  | 0 => 0
  | t + 1 => mismRec A B t + (if A.getD t default = B.getD t default then 0 else 1)

/-- The number of aligned positions at which two sequences differ. -/
def diffCount (A B : StateSeq) : ℕ :=
  (A.zip B).countP fun p => p.1 != p.2

/-- Modelled from the spec (§4.1, "interval"): substitution cost |i−j|. -/
def intervalSub (i j : ℕ) : ℚ := |(i : ℚ) - (j : ℚ)|

/-- Modelled from the spec (§4.1, "interval"): indel cost k−1. -/
def intervalInd (k : ℕ) (_ : ℕ) : ℚ := ((k - 1 : ℕ) : ℚ)

/-- Modelled from the spec: the interval OM distance. -/
def intervalPairDist (k : ℕ) (A B : StateSeq) : ℚ :=
  omDist intervalSub (intervalInd k) A B

/-- Modelled from the spec (§4.1, "arbitrary"): substitution cost 0.5 on
distinct states. -/
def arbSub (i j : ℕ) : ℚ := if i = j then 0 else 1 / 2

/-- Modelled from the spec (§4.1, "arbitrary"): indel cost 1. -/
def arbInd (_ : ℕ) : ℚ := 1

/-- Modelled from the spec: the arbitrary-regime OM distance. -/
def arbPairDist (A B : StateSeq) : ℚ := omDist arbSub arbInd A B

/-- Modelled from the spec (§4.2 MarkovChainAnalyzer): pooled count of
observed consecutive-pair transitions i→j across all sequences. -/
def countTrans (seqs : List StateSeq) (i j : ℕ) : ℕ :=
  (seqs.map fun s => (s.zip s.tail).count (i, j)).sum

/-- Modelled from the spec (§4.2): row sum of the count matrix. -/
def rowSum (seqs : List StateSeq) (k i : ℕ) : ℕ :=
  ((List.range k).map fun j => countTrans seqs i j).sum

/-- Modelled from the spec (§4.2): transition probabilities; each row is
normalized by its row sum, and all-zero rows stay all-zero. -/
def transP (seqs : List StateSeq) (k : ℕ) (i j : ℕ) : ℚ :=
  if rowSum seqs k i = 0 then 0
  else (countTrans seqs i j : ℚ) / (rowSum seqs k i : ℚ)

/-- Modelled from the spec (§4.1, "markov"): substitution cost
1 − (P[i][j] + P[j][i]) / 2 for i ≠ j, 0 on the diagonal. -/
def markovSub (P : ℕ → ℕ → ℚ) (i j : ℕ) : ℚ :=
  if i = j then 0 else 1 - (P i j + P j i) / 2

/-- Modelled from the spec (§4.1, "markov"): indel cost 1. -/
def markovInd (_ : ℕ) : ℚ := 1

/-- Modelled from the spec: the markov-regime OM distance. -/
def markovPairDist (P : ℕ → ℕ → ℚ) (A B : StateSeq) : ℚ :=
  omDist (markovSub P) markovInd A B

/-- Modelled from the spec (§4.1, "tran"): the sequence of T−1 transition
tokens, each token the ordered pair of consecutive states. -/
def tokens (s : StateSeq) : List (ℕ × ℕ) := s.zip s.tail

/-- Modelled from the spec (§4.1, "tran"): hamming-style cost on tokens. -/
def tranSub (t u : ℕ × ℕ) : ℚ := if t = u then 0 else 1

/-- Modelled from the spec (§4.1, "tran"): indel cost 1 on tokens. -/
def tranInd (_ : ℕ × ℕ) : ℚ := 1

/-- Modelled from the spec: the transition-oriented OM distance. -/
def tranPairDist (A B : StateSeq) : ℚ :=
  omDist tranSub tranInd (tokens A) (tokens B)

/-- Modelled from the spec (§3 ChainClassification, §4.2): the diagnostic
chain-classification report. -/
structure ChainClass where
  recurrentClasses : List (List ℕ)
  transientClass : List ℕ
  absorbingStates : List ℕ
deriving DecidableEq

/-- Edge i→j iff the transition probability is positive (spec §4.2). -/
def edgeB (P : ℕ → ℕ → ℚ) (i j : ℕ) : Bool := decide (0 < P i j)

/-- Reachability from i to j along positive-probability edges through
states < k, in at most n steps. -/
def reachB (P : ℕ → ℕ → ℚ) (k : ℕ) : ℕ → ℕ → ℕ → Bool
  | 0, i, j => i == j
  | n + 1, i, j =>
    i == j || (List.range k).any fun t => edgeB P i t && reachB P k n t j

/-- Reachability (paths of length at most k suffice among k states). -/
def reaches (P : ℕ → ℕ → ℚ) (k i j : ℕ) : Bool := reachB P k k i j

/-- A state is recurrent when its communicating class is closed: everything
it reaches can reach it back (spec §4.2). -/
def recurrentB (P : ℕ → ℕ → ℚ) (k i : ℕ) : Bool :=
  (List.range k).all fun j => !(reaches P k i j) || reaches P k j i

/-- The communicating class of a state. -/
def classOf (P : ℕ → ℕ → ℚ) (k i : ℕ) : List ℕ :=
  (List.range k).filter fun j => reaches P k i j && reaches P k j i

/-- Modelled from the spec (§4.2, code absent from src): recurrent classes,
transient class, and absorbing states (`P[i][i] = 1`). -/
def classify (P : ℕ → ℕ → ℚ) (k : ℕ) : ChainClass :=
  { recurrentClasses := (((List.range k).filter (recurrentB P k)).map (classOf P k)).dedup
    transientClass := (List.range k).filter fun i => !(recurrentB P k i)
    absorbingStates := (List.range k).filter fun i => decide (P i i = 1) }

/-- Modelled from the spec (§4.4 DistanceMatrixBuilder): one matrix entry —
diagonal set to 0 directly, upper triangle from the alignment engine, lower
triangle filled by symmetry. -/
def entryF (d : ℕ → ℕ → ℚ) (i j : ℕ) : ℚ :=
  if i = j then 0 else if i < j then d i j else d j i

/-- Modelled from the spec (§4.4): the materialized n×n distance matrix. -/
def matList (d : ℕ → ℕ → ℚ) (n : ℕ) : List (List ℚ) :=
  (List.range n).map fun i => (List.range n).map fun j => entryF d i j

/-- The enumerated distance regimes covered by the claims. -/
inductive DistType
  | hamming | interval | arbitrary | markov | tran
deriving DecidableEq

/-- Modelled from the spec (§4.3): the pair-level hamming alignment fails
fast with an invalid-input error on unequal lengths instead of silently
returning +∞. -/
def hammingPairDist (A B : StateSeq) : Except String ℚ :=
  if A.length = B.length then .ok ((hamDP A B).untop' 0)
  else .error "invalid input: hamming distance requires equal-length sequences"

/-- Modelled from the spec (§4.5 Sequence facade, code absent from src):
validate, build the cost model (invoking the Markov analyzer only for
"markov"), assemble the distance matrix, and return it together with the
chain-classification report for "markov" only. -/
def runSequence (dt : DistType) (seqs : List StateSeq) :
    Except String (List (List ℚ) × Option ChainClass) :=
  let n := seqs.length
  let k := inferK seqs
  match dt with
  | .hamming =>
    if seqs.all (fun s => s.length = (seqs.headD []).length) then
      .ok (matList (fun i j =>
        (hamDP (seqs.getD i []) (seqs.getD j [])).untop' 0) n, none)
    else .error "invalid input: hamming distance requires equal-length sequences"
  | .interval =>
    .ok (matList (fun i j => intervalPairDist k (seqs.getD i []) (seqs.getD j [])) n,
      none)
  | .arbitrary =>
    .ok (matList (fun i j => arbPairDist (seqs.getD i []) (seqs.getD j [])) n, none)
  | .markov =>
    .ok (matList (fun i j =>
        markovPairDist (transP seqs k) (seqs.getD i []) (seqs.getD j [])) n,
      some (classify (transP seqs k) k))
  | .tran =>
    .ok (matList (fun i j => tranPairDist (seqs.getD i []) (seqs.getD j [])) n, none)

/-! ### Hamming characterization -/

theorem specD_ham (A B : StateSeq) :
    ∀ i j, specD hamSub hamInd A B i j =
      if i = j then ((mismRec A B i : ℚ) : WithTop ℚ) else ⊤ := by
  intro i
  induction i with
  | zero =>
    intro j
    cases j with
    | zero => simp [specD, specRow0, mismRec]
    | succ j =>
      rw [specD_zero_succ]
      simp [hamInd]
  | succ i ihi =>
    intro j
    cases j with
    | zero =>
      rw [specD_succ_zero]
      simp [hamInd]
    | succ j =>
      rw [specD_succ_succ, ihi j]
      simp only [hamInd, add_top]
      rw [min_eq_left le_top, min_eq_left le_top]
      by_cases hij : i = j
      · subst hij
        rw [if_pos rfl, if_pos rfl]
        simp only [hamSub, mismRec]
        by_cases hab : A.getD i default = B.getD i default
        · rw [if_pos hab, if_pos hab]; norm_cast
        · rw [if_neg hab, if_neg hab]; norm_cast
      · rw [if_neg hij, if_neg (by omega : ¬(i + 1 = j + 1))]
        exact top_add _

theorem hamDP_eq_mism (A B : StateSeq) (h : A.length = B.length) :
    hamDP A B = ((mismRec A B A.length : ℚ) : WithTop ℚ) := by
  rw [hamDP, omDist, specD_ham]
  simp [h]

theorem hamDP_top (A B : StateSeq) (h : A.length ≠ B.length) :
    hamDP A B = ⊤ := by
  rw [hamDP, omDist, specD_ham]
  simp [h]

theorem mismRec_eq_countP (A B : StateSeq) :
    ∀ i, i ≤ A.length → i ≤ B.length →
      mismRec A B i = ((A.take i).zip (B.take i)).countP (fun p => p.1 != p.2) := by
  intro i
  induction i with
  | zero => intro _ _; simp [mismRec]
  | succ i ih =>
    intro hA hB
    have hA' : i < A.length := Nat.lt_of_succ_le hA
    have hB' : i < B.length := Nat.lt_of_succ_le hB
    have hta : A.take (i + 1) = A.take i ++ [A.getD i default] := by
      rw [List.take_succ, List.getElem?_eq_getElem hA']
      simp [List.getD, List.getElem?_eq_getElem hA']
    have htb : B.take (i + 1) = B.take i ++ [B.getD i default] := by
      rw [List.take_succ, List.getElem?_eq_getElem hB']
      simp [List.getD, List.getElem?_eq_getElem hB']
    rw [mismRec, ih (Nat.le_of_lt hA') (Nat.le_of_lt hB'), hta, htb,
      List.zip_append (by rw [List.length_take, List.length_take]; omega),
      List.countP_append]
    by_cases hab : A.getD i default = B.getD i default <;>
      simp [hab, List.countP_cons]

theorem mismRec_eq_diffCount (A B : StateSeq) (h : A.length = B.length) :
    mismRec A B A.length = diffCount A B := by
  rw [mismRec_eq_countP A B A.length (le_refl _) (le_of_eq h), diffCount]
  congr 1
  rw [List.take_length, h, List.take_length]

theorem mem_zip_self {p : ℕ × ℕ} : ∀ {A : StateSeq}, p ∈ A.zip A → p.1 = p.2 := by
  intro A
  induction A with
  | nil => intro h; simp at h
  | cons a A ih =>
    intro h
    rw [List.zip_cons_cons, List.mem_cons] at h
    rcases h with h | h
    · subst h; rfl
    · exact ih h

theorem diffCount_self (A : StateSeq) : diffCount A A = 0 := by
  rw [diffCount, List.countP_eq_zero]
  intro p hp
  simp [mem_zip_self hp]

theorem diffCount_zero_iff (A B : StateSeq) (h : A.length = B.length) :
    diffCount A B = 0 ↔ A = B := by
  constructor
  · intro h0
    have hall := List.countP_eq_zero.mp h0
    apply List.ext_getElem h
    intro t h1 h2
    by_contra hne
    have hmem : (A[t], B[t]) ∈ A.zip B := by
      rw [List.mem_iff_getElem]
      refine ⟨t, by rw [List.length_zip]; omega, ?_⟩
      rw [List.getElem_zip]
    have := hall _ hmem
    simp at this
    exact hne this
  · intro h
    subst h
    exact diffCount_self A

/-! ### Tokens -/

theorem tokens_length (s : StateSeq) : (tokens s).length = s.length - 1 := by
  rw [tokens, List.length_zip, List.length_tail]
  exact min_eq_right (Nat.sub_le _ _)

theorem map_snd_tokens (x : ℕ) (l : List ℕ) :
    (tokens (x :: l)).map Prod.snd = l :=
  List.map_snd_zip (x :: l) l (by simp)

theorem tokens_inj {A B : StateSeq} (hA : 2 ≤ A.length)
    (ht : tokens A = tokens B) : A = B := by
  cases A with
  | nil => simp at hA
  | cons a A1 =>
    cases A1 with
    | nil => simp at hA
    | cons a' A2 =>
      cases B with
      | nil => simp [tokens] at ht
      | cons b B1 =>
        cases B1 with
        | nil => simp [tokens] at ht
        | cons b' B2 =>
          have hhead : ((a, a') : ℕ × ℕ) = (b, b') := by
            have h0 := congrArg (fun l => l.headD ((0, 0) : ℕ × ℕ)) ht
            simpa [tokens] using h0
          have htail : A2 = B2 := by
            have h2 := congrArg (fun l => (List.map Prod.snd l).tail) ht
            simpa [map_snd_tokens] using h2
          have h1 : a = b := congrArg Prod.fst hhead
          have h2 : a' = b' := congrArg Prod.snd hhead
          subst h1; subst h2; subst htail
          rfl

/-! ### Transition probabilities -/

theorem transP_nonneg (seqs : List StateSeq) (k i j : ℕ) :
    0 ≤ transP seqs k i j := by
  rw [transP]
  split
  · exact le_refl 0
  · exact div_nonneg (Nat.cast_nonneg _) (Nat.cast_nonneg _)

theorem countTrans_le_rowSum (seqs : List StateSeq) {k i j : ℕ} (hj : j < k) :
    countTrans seqs i j ≤ rowSum seqs k i :=
  List.single_le_sum (fun x _ => Nat.zero_le x) _
    (List.mem_map_of_mem _ (List.mem_range.mpr hj))

theorem countTrans_eq_zero (seqs : List StateSeq) {k : ℕ}
    (hval : ∀ s ∈ seqs, ∀ x ∈ s, x < k) {i j : ℕ} (hj : k ≤ j) :
    countTrans seqs i j = 0 := by
  rw [countTrans]
  apply List.sum_eq_zero
  intro x hx
  obtain ⟨s, hs, rfl⟩ := List.mem_map.mp hx
  rw [List.count_eq_zero]
  intro hmem
  have h2 := (List.of_mem_zip hmem).2
  have h3 : j ∈ s := List.mem_of_mem_tail h2
  have := hval s hs j h3
  omega

theorem transP_le_one (seqs : List StateSeq) (k : ℕ)
    (hval : ∀ s ∈ seqs, ∀ x ∈ s, x < k) (i j : ℕ) :
    transP seqs k i j ≤ 1 := by
  rw [transP]
  split
  · exact zero_le_one
  · next h =>
    rw [div_le_one (by exact_mod_cast Nat.pos_of_ne_zero h)]
    by_cases hj : j < k
    · exact_mod_cast countTrans_le_rowSum seqs hj
    · rw [countTrans_eq_zero seqs hval (Nat.le_of_not_lt hj)]
      exact_mod_cast Nat.zero_le _

theorem markovSub_nonneg {P : ℕ → ℕ → ℚ} {i j : ℕ}
    (h1 : P i j ≤ 1) (h2 : P j i ≤ 1) : 0 ≤ markovSub P i j := by
  rw [markovSub]
  split
  · exact le_refl 0
  · linarith

theorem markovSub_le_one {P : ℕ → ℕ → ℚ} {i j : ℕ}
    (h1 : 0 ≤ P i j) (h2 : 0 ≤ P j i) : markovSub P i j ≤ 1 := by
  rw [markovSub]
  split
  · exact zero_le_one
  · linarith

theorem transP_row_sum_one (seqs : List StateSeq) (k i : ℕ)
    (h : rowSum seqs k i ≠ 0) :
    ((List.range k).map fun j => transP seqs k i j).sum = 1 := by
  have hP : ∀ j, transP seqs k i j =
      (countTrans seqs i j : ℚ) * ((rowSum seqs k i : ℚ))⁻¹ := by
    intro j
    rw [transP, if_neg h, div_eq_mul_inv]
  simp only [hP]
  rw [List.sum_map_mul_right]
  have hcast : ((List.range k).map fun j => ((countTrans seqs i j : ℕ) : ℚ)).sum =
      ((rowSum seqs k i : ℕ) : ℚ) := by
    rw [rowSum, Nat.cast_list_sum, List.map_map]
    rfl
  rw [hcast, mul_inv_cancel₀ (by exact_mod_cast h)]

theorem mismRec_self (A : StateSeq) : ∀ i, mismRec A A i = 0 := by
  intro i
  induction i with
  | zero => rfl
  | succ i ih => simp [mismRec, ih]

theorem eq_of_len_getD {α : Type} [Inhabited α] {A B : List α}
    (hlen : A.length = B.length)
    (h : ∀ t, t < A.length → A.getD t default = B.getD t default) : A = B := by
  apply List.ext_getElem hlen
  intro t h1 h2
  have h3 := h t h1
  rwa [List.getD_eq_getElem A default h1, List.getD_eq_getElem B default h2] at h3

/-- Zero OM distance characterizes equality when off-diagonal substitution
costs and indel costs are strictly positive. -/
theorem omDist_zero_iff {α : Type} [Inhabited α] {γ : Type}
    [LinearOrderedAddCommMonoid γ]
    (sub : α → α → γ) (ind : α → γ) (A B : List α)
    (hspos : ∀ a ∈ A, ∀ b ∈ B, a ≠ b → 0 < sub a b)
    (hs0 : ∀ a ∈ A, ∀ b ∈ B, 0 ≤ sub a b)
    (hdiagA : ∀ a ∈ A, sub a a = 0)
    (hsA : ∀ a ∈ A, ∀ b ∈ A, 0 ≤ sub a b)
    (hiA : ∀ a ∈ A, 0 < ind a) (hiB : ∀ b ∈ B, 0 < ind b) :
    omDist sub ind A B = 0 ↔ A = B := by
  constructor
  · intro h0
    obtain ⟨hlen, hpt⟩ := specD_eq_zero_imp sub ind A B hspos hs0 hiA hiB
      A.length (le_refl _) B.length (le_refl _) h0
    exact eq_of_len_getD hlen hpt
  · intro h
    subst h
    rw [omDist]
    exact specD_diag_self sub ind A hdiagA hsA (fun a ha => (hiA a ha).le)
      A.length (le_refl _)

/-! ### Claim theorems -/

/-- C1: for every pair of state sequences and every cost model, the
returned OM distance is the corner `D[m][n]` of the standard weighted
edit-distance recurrence, whose base cases and step are exactly as the
spec states them; in particular the distance between an empty sequence and
a non-empty one is the sum of the indel costs over the non-empty one. -/
theorem claim_C1 {α γ : Type} [Inhabited α] [LinearOrderedAddCommMonoid γ]
    (sub : α → α → γ) (ind : α → γ) (A B : List α) :
    omDist sub ind A B = specD sub ind A B A.length B.length ∧
    specD sub ind A B 0 0 = 0 ∧
    (∀ i, specD sub ind A B (i + 1) 0 =
      specD sub ind A B i 0 + ind (A.getD i default)) ∧
    (∀ j, specD sub ind A B 0 (j + 1) =
      specD sub ind A B 0 j + ind (B.getD j default)) ∧
    (∀ i j, specD sub ind A B (i + 1) (j + 1) =
      min (min (specD sub ind A B i j + sub (A.getD i default) (B.getD j default))
            (specD sub ind A B i (j + 1) + ind (A.getD i default)))
        (specD sub ind A B (i + 1) j + ind (B.getD j default))) ∧
    omDist sub ind [] B = (B.map ind).sum ∧
    omDist sub ind A [] = (A.map ind).sum := by
  refine ⟨rfl, rfl, fun i => rfl, fun j => rfl, fun i j => rfl, ?_, ?_⟩
  · rw [omDist]
    show specRow0 ind B B.length = _
    rw [specRow0_eq_sum ind B B.length (le_refl _), List.take_length]
  · rw [omDist]
    show specD sub ind A ([] : List α) A.length 0 = (List.map ind A).sum
    rw [specD_col0_eq_sum sub ind A [] A.length (le_refl _), List.take_length]

/-- C2: every produced distance matrix is symmetric with a zero diagonal;
the diagonal is set to 0 directly, the upper triangle `i < j` is the
engine's pair distance, the lower triangle is filled by symmetry; and
every matrix the facade returns has exactly this shape. -/
theorem claim_C2 :
    (∀ (d : ℕ → ℕ → ℚ) (i j : ℕ), entryF d i j = entryF d j i) ∧
    (∀ (d : ℕ → ℕ → ℚ) (i : ℕ), entryF d i i = 0) ∧
    (∀ (d : ℕ → ℕ → ℚ) (i j : ℕ), i < j → entryF d i j = d i j) ∧
    (∀ (d : ℕ → ℕ → ℚ) (n i j : ℕ), i < n → j < n →
      ((matList d n).getD i []).getD j 0 = entryF d i j) ∧
    (∀ dt seqs M r, runSequence dt seqs = .ok (M, r) →
      ∃ d, M = matList d seqs.length) := by
  refine ⟨?_, ?_, ?_, ?_, ?_⟩
  · intro d i j
    rw [entryF, entryF]
    rcases Nat.lt_trichotomy i j with h | h | h
    · rw [if_neg (by omega), if_pos h, if_neg (by omega), if_neg (by omega)]
    · subst h
      rw [if_pos rfl]
    · rw [if_neg (by omega), if_neg (by omega), if_neg (by omega), if_pos h]
  · intro d i
    rw [entryF, if_pos rfl]
  · intro d i j h
    rw [entryF, if_neg (by omega), if_pos h]
  · intro d n i j hi hj
    rw [matList]
    rw [List.getD_eq_getElem _ [] (by simpa using hi)]
    simp only [List.getElem_map, List.getElem_range]
    rw [List.getD_eq_getElem _ 0 (by simpa using hj)]
    simp only [List.getElem_map, List.getElem_range]
  · intro dt seqs M r h
    cases dt with
    | hamming =>
      simp only [runSequence] at h
      split at h
      · simp only [Except.ok.injEq, Prod.mk.injEq] at h
        exact ⟨_, h.1.symm⟩
      · exact Except.noConfusion h
    | interval =>
      simp only [runSequence, Except.ok.injEq, Prod.mk.injEq] at h
      exact ⟨_, h.1.symm⟩
    | arbitrary =>
      simp only [runSequence, Except.ok.injEq, Prod.mk.injEq] at h
      exact ⟨_, h.1.symm⟩
    | markov =>
      simp only [runSequence, Except.ok.injEq, Prod.mk.injEq] at h
      exact ⟨_, h.1.symm⟩
    | tran =>
      simp only [runSequence, Except.ok.injEq, Prod.mk.injEq] at h
      exact ⟨_, h.1.symm⟩

/-- Witness for C2 at concrete inputs. -/
theorem claim_C2_witness :
    ((0 : ℕ) < 1 ∧ entryF (fun _ _ => (7 : ℚ)) 0 1 = 7) ∧
    (runSequence .arbitrary [[0]] = .ok ([[0]], none) ∧
      ∃ d, ([[(0 : ℚ)]] : List (List ℚ)) = matList d ([[0]] : List StateSeq).length) := by
  have h : runSequence .arbitrary [[0]] = .ok ([[0]], none) := rfl
  exact ⟨⟨by omega, claim_C2.2.2.1 (fun _ _ => (7 : ℚ)) 0 1 (by omega)⟩,
    ⟨h, claim_C2.2.2.2.2 .arbitrary [[0]] [[(0 : ℚ)]] none h⟩⟩

/-- C8: the pipeline is deterministic — it is a pure function of the
regime and input batch (identical inputs give identical matrices, and
repeated reads of the result are equal by construction), and reordering
the minimization of the three recurrence options never changes any table
entry, so no tie-breaking can influence the result. -/
theorem claim_C8 :
    (∀ dt (s₁ s₂ : List StateSeq), s₁ = s₂ →
      runSequence dt s₁ = runSequence dt s₂) ∧
    (∀ (sub : ℕ → ℕ → ℚ) (ind : ℕ → ℚ) (A B : List ℕ) (i j : ℕ),
      specDAlt sub ind A B i j = specD sub ind A B i j) :=
  ⟨fun _ _ _ h => by rw [h], fun sub ind A B i j => specDAlt_eq sub ind A B i j⟩

/-- Witness for C8 at concrete inputs. -/
theorem claim_C8_witness :
    ([[0, 1]] : List StateSeq) = [[0, 1]] ∧
    runSequence .tran [[0, 1]] = runSequence .tran [[0, 1]] :=
  ⟨rfl, claim_C8.1 .tran [[0, 1]] [[0, 1]] rfl⟩

/-- C4: under the hamming regime (substitution 1 on distinct states, 0 on
equal states, indel +∞) the distance between equal-length sequences equals
the number of differing positions; for A=[0,0,1,1], B=[0,1,1,0] it is 2. -/
theorem claim_C4 :
    (∀ A B : StateSeq, A.length = B.length →
      hamDP A B = ((diffCount A B : ℚ) : WithTop ℚ)) ∧
    hamDP [0, 0, 1, 1] [0, 1, 1, 0] = ((2 : ℚ) : WithTop ℚ) ∧
    hammingPairDist [0, 0, 1, 1] [0, 1, 1, 0] = .ok 2 ∧
    diffCount [0, 0, 1, 1] [0, 1, 1, 0] = 2 := by
  have key : ∀ A B : StateSeq, A.length = B.length →
      hamDP A B = ((diffCount A B : ℚ) : WithTop ℚ) := by
    intro A B h
    rw [hamDP_eq_mism A B h, mismRec_eq_diffCount A B h]
  have hd : diffCount [0, 0, 1, 1] [0, 1, 1, 0] = 2 := by decide
  have h2 : hamDP [0, 0, 1, 1] [0, 1, 1, 0] = ((2 : ℚ) : WithTop ℚ) := by
    rw [key [0, 0, 1, 1] [0, 1, 1, 0] rfl, hd]
    norm_num
  refine ⟨key, h2, ?_, hd⟩
  rw [hammingPairDist,
    if_pos (show ([0, 0, 1, 1] : StateSeq).length = ([0, 1, 1, 0] : StateSeq).length
      from rfl), h2]
  rfl

/-- Witness for C4 at concrete inputs. -/
theorem claim_C4_witness :
    ([0, 1] : StateSeq).length = ([1, 1] : StateSeq).length ∧
    hamDP [0, 1] [1, 1] = ((diffCount [0, 1] [1, 1] : ℚ) : WithTop ℚ) :=
  ⟨rfl, claim_C4.1 [0, 1] [1, 1] rfl⟩

/-- C7: applying hamming to sequences of different lengths raises an
invalid-input error (fail-fast) — the pair engine returns the error rather
than silently yielding the +∞ that the DP produces there — and the facade
returns an error and never any (partial) matrix on this validation
failure. -/
theorem claim_C7 :
    (∀ A B : StateSeq, A.length ≠ B.length →
      hammingPairDist A B =
        .error "invalid input: hamming distance requires equal-length sequences" ∧
      hamDP A B = ⊤) ∧
    (∀ seqs : List StateSeq,
      ¬ (∀ s ∈ seqs, s.length = (seqs.headD []).length) →
      runSequence .hamming seqs =
        .error "invalid input: hamming distance requires equal-length sequences" ∧
      ∀ M r, runSequence .hamming seqs ≠ .ok (M, r)) := by
  constructor
  · intro A B h
    exact ⟨by rw [hammingPairDist, if_neg h], hamDP_top A B h⟩
  · intro seqs hne
    have hall : ¬ (seqs.all (fun s => s.length = (seqs.headD []).length) = true) := by
      simp only [List.all_eq_true, decide_eq_true_eq]
      exact hne
    have herr : runSequence .hamming seqs =
        .error "invalid input: hamming distance requires equal-length sequences" := by
      simp only [runSequence]
      rw [if_neg hall]
    refine ⟨herr, fun M r hok => ?_⟩
    rw [herr] at hok
    exact Except.noConfusion hok

/-- Witness for C7 at concrete inputs. -/
theorem claim_C7_witness :
    (([0] : StateSeq).length ≠ ([0, 1] : StateSeq).length ∧
      hammingPairDist [0] [0, 1] =
        .error "invalid input: hamming distance requires equal-length sequences" ∧
      hamDP [0] [0, 1] = ⊤) ∧
    (¬ (∀ s ∈ ([[0], [0, 1]] : List StateSeq),
        s.length = (([[0], [0, 1]] : List StateSeq).headD []).length) ∧
      runSequence .hamming [[0], [0, 1]] =
        .error "invalid input: hamming distance requires equal-length sequences") := by
  have hlen : ([0] : StateSeq).length ≠ ([0, 1] : StateSeq).length := by decide
  have hne : ¬ (∀ s ∈ ([[0], [0, 1]] : List StateSeq),
      s.length = (([[0], [0, 1]] : List StateSeq).headD []).length) := by
    intro hall
    have := hall [0, 1] (by simp)
    simp at this
  have h1 := claim_C7.1 [0] [0, 1] hlen
  have h2 := claim_C7.2 [[0], [0, 1]] hne
  exact ⟨⟨hlen, h1.1, h1.2⟩, ⟨hne, h2.1⟩⟩

/-- C5: the markov transition matrix is the count matrix with each row
normalized by its row sum (rows with a non-zero row sum sum to 1 over the
alphabet); the substitution cost for i≠j is 1 − (P[i][j]+P[j][i])/2; if
both directions were never observed the cost equals exactly 1, which is
the maximum for this regime; and all probabilities are non-negative. -/
theorem claim_C5 (seqs : List StateSeq) (k i j : ℕ) :
    (i ≠ j → transP seqs k i j = 0 → transP seqs k j i = 0 →
      markovSub (transP seqs k) i j = 1) ∧
    ((∀ s ∈ seqs, ∀ x ∈ s, x < k) → markovSub (transP seqs k) i j ≤ 1) ∧
    0 ≤ transP seqs k i j ∧
    (rowSum seqs k i ≠ 0 →
      ((List.range k).map fun t => transP seqs k i t).sum = 1) := by
  refine ⟨?_, ?_, transP_nonneg seqs k i j, transP_row_sum_one seqs k i⟩
  · intro hij h1 h2
    rw [markovSub, if_neg hij, h1, h2]
    norm_num
  · intro hval
    exact markovSub_le_one (transP_nonneg seqs k i j) (transP_nonneg seqs k j i)

/-- Witness for C5 at a concrete batch in which states 0 and 1 never
transition to each other. -/
theorem claim_C5_witness :
    ((0 : ℕ) ≠ 1 ∧ transP [[0, 0], [2, 2]] 3 0 1 = 0 ∧
      transP [[0, 0], [2, 2]] 3 1 0 = 0 ∧
      markovSub (transP [[0, 0], [2, 2]] 3) 0 1 = 1) ∧
    (rowSum [[0, 0], [2, 2]] 3 0 ≠ 0 ∧
      ((List.range 3).map fun t => transP [[0, 0], [2, 2]] 3 0 t).sum = 1) := by
  have hP01 : transP [[0, 0], [2, 2]] 3 0 1 = 0 := by
    rw [transP, if_neg (by decide),
      show countTrans [[0, 0], [2, 2]] 0 1 = 0 from by decide]
    norm_num
  have hP10 : transP [[0, 0], [2, 2]] 3 1 0 = 0 := by
    rw [transP, if_pos (by decide)]
  exact ⟨⟨by decide, hP01, hP10,
      (claim_C5 [[0, 0], [2, 2]] 3 0 1).1 (by decide) hP01 hP10⟩,
    ⟨by decide, (claim_C5 [[0, 0], [2, 2]] 3 0 1).2.2.2 (by decide)⟩⟩

/-- C6: for the "markov" regime the facade returns the distance matrix
together with the chain-classification report as a separate auxiliary
component — the matrix component is exactly the matrix of markov pair
distances, not mixed with the report — and no other regime carries a
report. -/
theorem claim_C6 (seqs : List StateSeq) :
    runSequence .markov seqs =
      .ok (matList (fun i j => markovPairDist (transP seqs (inferK seqs))
            (seqs.getD i []) (seqs.getD j [])) seqs.length,
          some (classify (transP seqs (inferK seqs)) (inferK seqs))) ∧
    (∀ dt, dt ≠ .markov → ∀ M r, runSequence dt seqs = .ok (M, r) → r = none) := by
  constructor
  · rfl
  · intro dt hdt M r h
    cases dt with
    | hamming =>
      simp only [runSequence] at h
      split at h
      · simp only [Except.ok.injEq, Prod.mk.injEq] at h
        exact h.2.symm
      · exact Except.noConfusion h
    | interval =>
      simp only [runSequence, Except.ok.injEq, Prod.mk.injEq] at h
      exact h.2.symm
    | arbitrary =>
      simp only [runSequence, Except.ok.injEq, Prod.mk.injEq] at h
      exact h.2.symm
    | markov => exact absurd rfl hdt
    | tran =>
      simp only [runSequence, Except.ok.injEq, Prod.mk.injEq] at h
      exact h.2.symm

/-- Witness for C6 at concrete inputs. -/
theorem claim_C6_witness :
    DistType.tran ≠ DistType.markov ∧
    runSequence .tran [[0]] = .ok ([[0]], none) ∧
    (none : Option ChainClass) = none := by
  have h : runSequence .tran [[0]] = .ok ([[0]], none) := rfl
  exact ⟨by decide, h, (claim_C6 [[0]]).2 .tran (by decide) [[0]] none h⟩

/-- C9: under "tran" each length-T sequence becomes T−1 consecutive-pair
transition tokens, the distance is the edit distance over tokens with
substitution cost 1/0 and indel cost 1, and for two length-T inputs the
distance is a non-negative integer at most T−1. -/
theorem claim_C9 :
    (∀ s : StateSeq, (tokens s).length = s.length - 1) ∧
    (∀ (A B : StateSeq) (T : ℕ), A.length = T → B.length = T →
      ∃ d : ℕ, tranPairDist A B = (d : ℚ) ∧ d ≤ T - 1) := by
  refine ⟨tokens_length, ?_⟩
  intro A B T hA hB
  have hlen : (tokens B).length = (tokens A).length := by
    rw [tokens_length, tokens_length, hA, hB]
  obtain ⟨d, hd⟩ := specD_natCast tranSub tranInd (tokens A) (tokens B)
    (fun a b => by
      rw [tranSub]
      split
      · exact ⟨0, by norm_num⟩
      · exact ⟨1, by norm_num⟩)
    (fun a => ⟨1, by rw [tranInd]; norm_num⟩)
    (tokens A).length (tokens B).length
  rw [hlen] at hd
  have hub := specD_diag_le tranSub tranInd (tokens A) (tokens B) (1 : ℚ)
    (tokens A).length (fun t _ => by
      rw [tranSub]
      split
      · norm_num
      · norm_num)
  have hnn : (d : ℚ) ≤ (tokens A).length • (1 : ℚ) := by
    rw [← hd]
    exact hub
  have hcast : (d : ℚ) ≤ ((tokens A).length : ℚ) := by
    rwa [nsmul_eq_mul, mul_one] at hnn
  have hdle : d ≤ (tokens A).length := by exact_mod_cast hcast
  refine ⟨d, ?_, ?_⟩
  · rw [tranPairDist, omDist, hlen]
    exact hd
  · rw [tokens_length, hA] at hdle
    exact hdle

/-- Witness for C9 at concrete inputs. -/
theorem claim_C9_witness :
    ([0, 1] : StateSeq).length = 2 ∧ ([1, 0] : StateSeq).length = 2 ∧
    ∃ d : ℕ, tranPairDist [0, 1] [1, 0] = (d : ℚ) ∧ d ≤ 2 - 1 :=
  ⟨rfl, rfl, claim_C9.2 [0, 1] [1, 0] 2 rfl rfl⟩

/-- C10: under "arbitrary" (substitution 1/2, indel 1) the distance between
two equal-length sequences of length T is at most 0.5·T, substitution of
every position never being costlier than a path with indels; and the bound
is attained, for every T, by the maximally dissimilar pair 0…0 / 1…1. -/
theorem claim_C10 :
    (∀ (A B : StateSeq) (T : ℕ), A.length = T → B.length = T →
      arbPairDist A B ≤ (T : ℚ) / 2) ∧
    (∀ T : ℕ, arbPairDist (List.replicate T 0) (List.replicate T 1) = (T : ℚ) / 2) := by
  have hsub_le : ∀ a b : ℕ, arbSub a b ≤ 1 / 2 := by
    intro a b
    rw [arbSub]
    split
    · norm_num
    · norm_num
  constructor
  · intro A B T hA hB
    calc arbPairDist A B = specD arbSub arbInd A B T T := by
          rw [arbPairDist, omDist, hA, hB]
      _ ≤ T • (1 / 2 : ℚ) :=
          specD_diag_le arbSub arbInd A B (1 / 2 : ℚ) T (fun t _ => hsub_le _ _)
      _ = (T : ℚ) / 2 := by rw [nsmul_eq_mul]; ring
  · intro T
    have hle := specD_diag_le arbSub arbInd (List.replicate T 0)
      (List.replicate T 1) (1 / 2 : ℚ) T (fun t _ => hsub_le _ _)
    have hge := specD_lower arbSub arbInd (List.replicate T 0)
      (List.replicate T 1) (1 / 2 : ℚ) (by norm_num)
      (fun a ha b hb => by
        rw [List.eq_of_mem_replicate ha, List.eq_of_mem_replicate hb, arbSub]
        norm_num)
      (fun a _ => by rw [arbInd]; norm_num)
      (fun b _ => by rw [arbInd]; norm_num)
      T (by rw [List.length_replicate]) T (by rw [List.length_replicate])
    rw [max_self] at hge
    have heq : specD arbSub arbInd (List.replicate T 0) (List.replicate T 1) T T =
        T • (1 / 2 : ℚ) := le_antisymm hle hge
    rw [arbPairDist, omDist, List.length_replicate, List.length_replicate, heq,
      nsmul_eq_mul]
    ring

/-- Witness for C10 at concrete inputs. -/
theorem claim_C10_witness :
    ([0, 1] : StateSeq).length = 2 ∧ ([1, 1] : StateSeq).length = 2 ∧
    arbPairDist [0, 1] [1, 1] ≤ (2 : ℚ) / 2 :=
  ⟨rfl, rfl, claim_C10.1 [0, 1] [1, 1] 2 rfl rfl⟩

/-- C3 (amended): under every listed regime the distance is non-negative
and identical sequences have distance 0; the converse (distance 0 only for
identical sequences) holds for hamming on equal-length inputs, for
interval when the alphabet has at least two states, for arbitrary, and for
tran on sequences of length at least 2 — but not in general for markov
(see the counterexample) nor for tran on length-1 sequences. -/
theorem claim_C3 :
    (∀ A B : StateSeq, 0 ≤ hamDP A B) ∧
    (∀ (k : ℕ) (A B : StateSeq), 0 ≤ intervalPairDist k A B) ∧
    (∀ A B : StateSeq, 0 ≤ arbPairDist A B) ∧
    (∀ (seqs : List StateSeq) (A B : StateSeq),
      0 ≤ markovPairDist (transP seqs (inferK seqs)) A B) ∧
    (∀ A B : StateSeq, 0 ≤ tranPairDist A B) ∧
    (∀ A : StateSeq, hamDP A A = 0) ∧
    (∀ (k : ℕ) (A : StateSeq), intervalPairDist k A A = 0) ∧
    (∀ A : StateSeq, arbPairDist A A = 0) ∧
    (∀ (seqs : List StateSeq) (A : StateSeq),
      markovPairDist (transP seqs (inferK seqs)) A A = 0) ∧
    (∀ A : StateSeq, tranPairDist A A = 0) ∧
    (∀ A B : StateSeq, A.length = B.length → (hamDP A B = 0 ↔ A = B)) ∧
    (∀ (k : ℕ) (A B : StateSeq), 2 ≤ k →
      (intervalPairDist k A B = 0 ↔ A = B)) ∧
    (∀ A B : StateSeq, (arbPairDist A B = 0 ↔ A = B)) ∧
    (∀ A B : StateSeq, 2 ≤ A.length → (tranPairDist A B = 0 ↔ A = B)) := by
  have hamsub0 : ∀ a b : ℕ, 0 ≤ hamSub a b := by
    intro a b
    rw [hamSub]
    split
    · exact le_refl 0
    · exact zero_le_one
  have arbsub0 : ∀ a b : ℕ, 0 ≤ arbSub a b := by
    intro a b
    rw [arbSub]
    split
    · norm_num
    · norm_num
  have transub0 : ∀ a b : ℕ × ℕ, 0 ≤ tranSub a b := by
    intro a b
    rw [tranSub]
    split
    · norm_num
    · norm_num
  have marksub01 : ∀ (seqs : List StateSeq) (i j : ℕ),
      0 ≤ markovSub (transP seqs (inferK seqs)) i j := by
    intro seqs i j
    have hval : ∀ s ∈ seqs, ∀ x ∈ s, x < inferK seqs :=
      fun s hs x hx => label_lt_inferK hs hx
    exact markovSub_nonneg (transP_le_one seqs _ hval i j)
      (transP_le_one seqs _ hval j i)
  refine ⟨?_, ?_, ?_, ?_, ?_, ?_, ?_, ?_, ?_, ?_, ?_, ?_, ?_, ?_⟩
  · intro A B
    rw [hamDP, omDist]
    exact specD_nonneg hamSub hamInd A B (fun a _ b _ => hamsub0 a b)
      (fun a _ => le_top) (fun b _ => le_top) A.length (le_refl _)
      B.length (le_refl _)
  · intro k A B
    rw [intervalPairDist, omDist]
    exact specD_nonneg intervalSub (intervalInd k) A B
      (fun a _ b _ => abs_nonneg _) (fun a _ => Nat.cast_nonneg _)
      (fun b _ => Nat.cast_nonneg _) A.length (le_refl _) B.length (le_refl _)
  · intro A B
    rw [arbPairDist, omDist]
    exact specD_nonneg arbSub arbInd A B (fun a _ b _ => arbsub0 a b)
      (fun a _ => by rw [arbInd]; norm_num) (fun b _ => by rw [arbInd]; norm_num)
      A.length (le_refl _) B.length (le_refl _)
  · intro seqs A B
    rw [markovPairDist, omDist]
    exact specD_nonneg _ markovInd A B (fun a _ b _ => marksub01 seqs a b)
      (fun a _ => by rw [markovInd]; norm_num)
      (fun b _ => by rw [markovInd]; norm_num)
      A.length (le_refl _) B.length (le_refl _)
  · intro A B
    rw [tranPairDist, omDist]
    exact specD_nonneg tranSub tranInd (tokens A) (tokens B)
      (fun a _ b _ => transub0 a b)
      (fun a _ => by rw [tranInd]; norm_num) (fun b _ => by rw [tranInd]; norm_num)
      (tokens A).length (le_refl _) (tokens B).length (le_refl _)
  · intro A
    rw [hamDP_eq_mism A A rfl, mismRec_self]
    norm_num
  · intro k A
    rw [intervalPairDist, omDist]
    exact specD_diag_self intervalSub (intervalInd k) A
      (fun a _ => by simp [intervalSub]) (fun a _ b _ => abs_nonneg _)
      (fun a _ => Nat.cast_nonneg _) A.length (le_refl _)
  · intro A
    rw [arbPairDist, omDist]
    exact specD_diag_self arbSub arbInd A (fun a _ => by simp [arbSub])
      (fun a _ b _ => arbsub0 a b) (fun a _ => by rw [arbInd]; norm_num)
      A.length (le_refl _)
  · intro seqs A
    rw [markovPairDist, omDist]
    exact specD_diag_self _ markovInd A
      (fun a _ => by rw [markovSub, if_pos rfl])
      (fun a _ b _ => marksub01 seqs a b)
      (fun a _ => by rw [markovInd]; norm_num) A.length (le_refl _)
  · intro A
    rw [tranPairDist, omDist]
    exact specD_diag_self tranSub tranInd (tokens A)
      (fun a _ => by simp [tranSub]) (fun a _ b _ => transub0 a b)
      (fun a _ => by rw [tranInd]; norm_num) (tokens A).length (le_refl _)
  · intro A B h
    rw [hamDP_eq_mism A B h, mismRec_eq_diffCount A B h]
    constructor
    · intro h0
      have h1 : diffCount A B = 0 := by exact_mod_cast h0
      exact (diffCount_zero_iff A B h).mp h1
    · intro heq
      subst heq
      rw [diffCount_self]
      norm_num
  · intro k A B hk
    rw [intervalPairDist]
    exact omDist_zero_iff intervalSub (intervalInd k) A B
      (fun a _ b _ hab =>
        abs_pos.mpr (sub_ne_zero_of_ne fun hc => hab (by exact_mod_cast hc)))
      (fun a _ b _ => abs_nonneg _) (fun a _ => by simp [intervalSub])
      (fun a _ b _ => abs_nonneg _)
      (fun a _ => by rw [intervalInd]; exact_mod_cast Nat.pos_of_ne_zero (by omega))
      (fun b _ => by rw [intervalInd]; exact_mod_cast Nat.pos_of_ne_zero (by omega))
  · intro A B
    rw [arbPairDist]
    exact omDist_zero_iff arbSub arbInd A B
      (fun a _ b _ hab => by rw [arbSub, if_neg hab]; norm_num)
      (fun a _ b _ => arbsub0 a b) (fun a _ => by simp [arbSub])
      (fun a _ b _ => arbsub0 a b)
      (fun a _ => by rw [arbInd]; norm_num) (fun b _ => by rw [arbInd]; norm_num)
  · intro A B hA2
    rw [tranPairDist,
      omDist_zero_iff tranSub tranInd (tokens A) (tokens B)
        (fun a _ b _ hab => by rw [tranSub, if_neg hab]; norm_num)
        (fun a _ b _ => transub0 a b) (fun a _ => by simp [tranSub])
        (fun a _ b _ => transub0 a b)
        (fun a _ => by rw [tranInd]; norm_num)
        (fun b _ => by rw [tranInd]; norm_num)]
    constructor
    · exact fun ht => tokens_inj hA2 ht
    · intro h
      rw [h]

/-- Witness for C3 at concrete inputs. -/
theorem claim_C3_witness :
    (2 : ℕ) ≤ 2 ∧ (intervalPairDist 2 [0] [0] = 0 ↔ ([0] : StateSeq) = [0]) :=
  ⟨le_refl 2, claim_C3.2.2.2.2.2.2.2.2.2.2.2.1 2 [0] [0] (le_refl 2)⟩

/-- C3 counterexample: "distance zero iff identical, under every listed
regime" fails on the modelled code: under markov with batch [[0,1],[1,0]]
the distinct sequences [0,1] and [1,0] have distance 0 (P[0][1]=P[1][0]=1
makes their substitution cost 0); under tran the distinct length-1
sequences [0] and [1] have distance 0 (both have an empty token sequence);
and under interval with a one-state alphabet the distinct sequences [0]
and [0,0] have distance 0 (indel cost k−1=0). -/
theorem claim_C3_counterexample :
    (markovPairDist (transP [[0, 1], [1, 0]] (inferK [[0, 1], [1, 0]]))
        [0, 1] [1, 0] = 0 ∧ ([0, 1] : StateSeq) ≠ [1, 0]) ∧
    (tranPairDist [0] [1] = 0 ∧ ([0] : StateSeq) ≠ [1]) ∧
    (intervalPairDist (inferK [[0], [0, 0]]) [0] [0, 0] = 0 ∧
      ([0] : StateSeq) ≠ [0, 0]) := by
  have hk : inferK [[0, 1], [1, 0]] = 2 := rfl
  have hP01 : transP [[0, 1], [1, 0]] 2 0 1 = 1 := by
    rw [transP, if_neg (by decide),
      show countTrans [[0, 1], [1, 0]] 0 1 = 1 from by decide,
      show rowSum [[0, 1], [1, 0]] 2 0 = 1 from by decide]
    norm_num
  have hP10 : transP [[0, 1], [1, 0]] 2 1 0 = 1 := by
    rw [transP, if_neg (by decide),
      show countTrans [[0, 1], [1, 0]] 1 0 = 1 from by decide,
      show rowSum [[0, 1], [1, 0]] 2 1 = 1 from by decide]
    norm_num
  have hs01 : markovSub (transP [[0, 1], [1, 0]] 2) 0 1 = 0 := by
    rw [markovSub, if_neg (by decide), hP01, hP10]
    norm_num
  have hs10 : markovSub (transP [[0, 1], [1, 0]] 2) 1 0 = 0 := by
    rw [markovSub, if_neg (by decide), hP10, hP01]
    norm_num
  have hs00 : markovSub (transP [[0, 1], [1, 0]] 2) 0 0 = 0 := by
    rw [markovSub, if_pos rfl]
  have hs11 : markovSub (transP [[0, 1], [1, 0]] 2) 1 1 = 0 := by
    rw [markovSub, if_pos rfl]
  refine ⟨⟨?_, by decide⟩, ⟨rfl, by decide⟩, ⟨?_, by decide⟩⟩
  · rw [hk]
    norm_num [markovPairDist, omDist, specD, specRow0, specRowStep, markovInd,
      List.getD, min_def, hs00, hs01, hs10, hs11]
  · rw [show inferK [[0], [0, 0]] = 1 from rfl]
    norm_num [intervalPairDist, omDist, specD, specRow0, specRowStep,
      intervalSub, intervalInd, List.getD, min_def]

end GiddySeq
